import Mathlib

/-!
Shallow embedding of the Lagardere receipt scripts
(`desktop_app.py`, `extract_predal.py`, `app.py`, `lagardere_table.py`).

Strings are modelled as lists of Unicode code points (`List Char`), matching
Python's code-point view of `str`; Python `float` quantities are modelled as
exact rationals (the quantities the scripts handle are short decimal literals,
all exactly representable).  Case folding is modelled character-wise on the
ASCII and Cyrillic ranges actually used by the scripts.
-/

/-- Strings as lists of code points, the unit Python indexes and slices by. -/
abbrev Str := List Char

/-- Model of Python `str.upper`, restricted to ASCII letters and the Cyrillic
alphabet (the only scripts the program case-folds); other code points are kept
unchanged.  Python's rare multi-character uppercase expansions are outside the
modelled character ranges. -/
def pyUpperChar (c : Char) : Char :=
  if 'a' ≤ c ∧ c ≤ 'z' then Char.ofNat (c.toNat - 32)
  else if 'а' ≤ c ∧ c ≤ 'я' then Char.ofNat (c.toNat - 32)
  else if c = 'ё' then 'Ё'
  else c

/-- Model of Python `str.lower`, restricted like `pyUpperChar`. -/
def pyLowerChar (c : Char) : Char :=
  if 'A' ≤ c ∧ c ≤ 'Z' then Char.ofNat (c.toNat + 32)
  else if 'А' ≤ c ∧ c ≤ 'Я' then Char.ofNat (c.toNat + 32)
  else if c = 'Ё' then 'ё'
  else c

/-- Model of Python's whitespace test used by `str.strip()`, covering the
whitespace code points that occur in these documents (ASCII whitespace, NEL,
no-break space). -/
def pyIsSpace (c : Char) : Bool :=
  c == ' ' || c == '\t' || c == '\n' || c == '\r' || c == '\x0b' || c == '\x0c' ||
  c == '\u0085' || c == ' '

/-- Python `str.strip(chars)`: remove the characters satisfying `p` from both
ends of the string. -/
def stripBoth (p : Char → Bool) (s : Str) : Str :=
  ((s.dropWhile p).reverse.dropWhile p).reverse

/-- Python `str.strip()`: remove leading and trailing whitespace. -/
def pyStrip (s : Str) : Str := stripBoth pyIsSpace s

/-- Python `str.find` for a pattern: index of its first occurrence, if any. -/
def findSub (pat : Str) : Str → Option Nat
  | [] => if pat = [] then some 0 else none
  | c :: rest =>
    if pat.isPrefixOf (c :: rest) then some 0
    else (findSub pat rest).map (· + 1)

/-- Python `pat in s` substring test. -/
def subIn (pat s : Str) : Bool := (findSub pat s).isSome

/-- Python `str.endswith(":")`. -/
def endsColon (s : Str) : Bool := s.getLast? == some ':'

/-- The marker literal `"ПРЕДАЛ"` (upper-case Cyrillic) shared by all four
entry points. -/
def MARKER : Str := ("ПРЕДАЛ").data

/-- Membership in the Python strip set `" : "` used around extracted
values. -/
def isMarkerPunct (c : Char) : Bool := c == ' ' || c == ':' || c == ' '

/-- Python `s.strip(" : ")`: strip spaces, colons and no-break spaces from
both ends. -/
def stripMarkerPunct (s : Str) : Str := stripBoth isMarkerPunct s

/-- `extract_predal_from_chunks` from `desktop_app.py` lines 96-110.  The loop
over `enumerate(upper_chunks)` with the `chunks[i + 1]` lookahead is rendered as
structural recursion; continuing the `for` loop is the recursive call on the
tail.  `(findSub ...).getD 0` models `str.find`, which cannot miss here because
the branch is guarded by the containment test. -/
def extract_predal_from_chunks : List Str → Option Str
  | [] => none
  | c :: rest =>
    if subIn MARKER (c.map pyUpperChar) then
      let idx := (findSub MARKER (c.map pyUpperChar)).getD 0
      let after := (c.drop (idx + MARKER.length)).dropWhile isMarkerPunct
      if after ≠ [] then some after
      else
        match rest with
        | next :: _ =>
          let nc := pyStrip next
          if nc ≠ [] ∧ endsColon nc = false then some nc
          else extract_predal_from_chunks rest
        | [] => extract_predal_from_chunks rest
    else extract_predal_from_chunks rest

/-- The identical copy of `extract_predal_from_chunks` in `extract_predal.py`
lines 33-49. -/
def extract_predal_from_chunks_cli : List Str → Option Str
  | [] => none
  | c :: rest =>
    if subIn MARKER (c.map pyUpperChar) then
      let idx := (findSub MARKER (c.map pyUpperChar)).getD 0
      let after := (c.drop (idx + MARKER.length)).dropWhile isMarkerPunct
      if after ≠ [] then some after
      else
        match rest with
        | next :: _ =>
          let nc := pyStrip next
          if nc ≠ [] ∧ endsColon nc = false then some nc
          else extract_predal_from_chunks_cli rest
        | [] => extract_predal_from_chunks_cli rest
    else extract_predal_from_chunks_cli rest

/-- The identical copy of `extract_predal_from_chunks` in `app.py`
lines 39-53. -/
def extract_predal_from_chunks_web : List Str → Option Str
  | [] => none
  | c :: rest =>
    if subIn MARKER (c.map pyUpperChar) then
      let idx := (findSub MARKER (c.map pyUpperChar)).getD 0
      let after := (c.drop (idx + MARKER.length)).dropWhile isMarkerPunct
      if after ≠ [] then some after
      else
        match rest with
        | next :: _ =>
          let nc := pyStrip next
          if nc ≠ [] ∧ endsColon nc = false then some nc
          else extract_predal_from_chunks_web rest
        | [] => extract_predal_from_chunks_web rest
    else extract_predal_from_chunks_web rest

/-- The identical copy of `extract_predal_from_chunks` in `lagardere_table.py`
lines 36-50. -/
def extract_predal_from_chunks_table : List Str → Option Str
  | [] => none
  | c :: rest =>
    if subIn MARKER (c.map pyUpperChar) then
      let idx := (findSub MARKER (c.map pyUpperChar)).getD 0
      let after := (c.drop (idx + MARKER.length)).dropWhile isMarkerPunct
      if after ≠ [] then some after
      else
        match rest with
        | next :: _ =>
          let nc := pyStrip next
          if nc ≠ [] ∧ endsColon nc = false then some nc
          else extract_predal_from_chunks_table rest
        | [] => extract_predal_from_chunks_table rest
    else extract_predal_from_chunks_table rest

/-- The boilerplate phrase removed by `clean_predal` (`desktop_app.py` line
117). -/
def BOILER : Str := ("(име, фамилия, подпис):").data

/-- `clean_predal` from `desktop_app.py` lines 113-122: strip the value, remove
the boilerplate phrase at the first position where `text.lower()` contains it
(Python `str.find`), re-strip, and finally strip marker punctuation. -/
def clean_predal (value : Str) : Str :=
  if value = [] then []
  else
    let text := pyStrip value
    let text2 :=
      match findSub BOILER (text.map pyLowerChar) with
      | some idx => pyStrip (text.take idx ++ text.drop (idx + BOILER.length))
      | none => text
    stripMarkerPunct text2

/-- `PRODUCT_ORDER` from `desktop_app.py` lines 17-58: the fixed catalog of
canonical product names, in output order. -/
def PRODUCT_ORDER : List Str :=
  [("PAZ X-Freeze").data,
   ("PAZ X-Freeze +").data,
   ("PAZ Cool Mint").data,
   ("PAZ Cool mint +").data,
   ("PAZ Lush ice").data,
   ("PAZ Lush ice +").data,
   ("PAZ Mango").data,
   ("PAZ Mango winter +").data,
   ("PAZ Berry frost").data,
   ("PAZ Berry frost +").data,
   ("V&YOU Boost+ Cool Berry").data,
   ("V&YOU Boost+ Intense Mint").data,
   ("V&YOU Boost+ Fresh Citrus").data,
   ("V&YOU Boost+ Blueberry Ice").data,
   ("V&YOU Boost+ Spearmint").data,
   ("V&YOU Boost+ Grape soda").data,
   ("V&YOU Boost+ Berry Fizz").data,
   ("V&YOU Boost+ Mint Freeze").data,
   ("V&YOU Boost+ Berry Kiwi rush").data,
   ("V&YOU Boost+ Tropical fusion").data,
   ("V&YOU Boost Max Frostbite").data,
   ("V&YOU Boost Max Frutti Blast").data,
   ("V&YOU Boost Max Savage mango").data,
   ("01 Riot Kit Cherry cola").data,
   ("02 Riot Kit Pink lemonade").data,
   ("03 Riot Kit Mango peach pineapple").data,
   ("04 Riot Kit Grape ice").data,
   ("05 Riot Kit Blueberry sour raspberry").data,
   ("01 Riot Capsule Cherry cola").data,
   ("02 Riot Capsule Pink lemonade").data,
   ("03 Riot Capsule Mango peach pineapple").data,
   ("04 Riot Capsule Grape ice").data,
   ("05 Riot Capsule Blueberry sour raspberry").data,
   ("06 Riot Capsule Strawberry blueberry ice").data,
   ("07 Riot Capsule Blue cherry burst").data,
   ("08 Riot Capsule Classic tobacoo").data,
   ("09 Riot Capsule Banana Ice").data,
   ("10 Riot Capsule Lime").data,
   ("11 Riot Capsule Strawberry Kiwi Apple").data,
   ("12 Riot Capsule Triple Mint").data]

/-- `BRAND_BOUNDARIES` from `desktop_app.py` lines 60-65, as an association
list (a Python dict with distinct keys, read only through key lookup). -/
def BRAND_BOUNDARIES : List (Str × Str) :=
  [(("PAZ Berry frost +").data, ("PAZ").data),
   (("V&YOU Boost Max Savage mango").data, ("V&YOU").data),
   (("05 Riot Kit Blueberry sour raspberry").data, ("RIOT Kit").data),
   (("12 Riot Capsule Triple Mint").data, ("RIOT Capsule").data)]

/-- `BRAND_PRODUCTS` from `desktop_app.py` lines 67-72: the catalog slices
`PRODUCT_ORDER[0:10]`, `[10:23]`, `[23:28]`, `[28:40]` keyed by brand. -/
def BRAND_PRODUCTS : List (Str × List Str) :=
  [(("PAZ").data, PRODUCT_ORDER.take 10),
   (("V&YOU").data, (PRODUCT_ORDER.drop 10).take 13),
   (("RIOT Kit").data, (PRODUCT_ORDER.drop 23).take 5),
   (("RIOT Capsule").data, (PRODUCT_ORDER.drop 28).take 12)]

/-- Numeric value of a run of decimal digits, most significant first. -/
def digitsVal (ds : Str) : Nat := ds.foldl (fun n c => 10 * n + (c.toNat - 48)) 0

/-- Model of Python `float(text)` on the decimal literals the scripts feed it:
an optional sign followed by digits with an optional fractional part.  The
result is the exact rational value; exponent notation, digit underscores and
`inf`/`nan` do not occur in the quantity data and are not modelled (they yield
`none`). -/
def pyFloat (s : Str) : Option ℚ :=
  let signBody : Bool × Str :=
    match s with
    | '-' :: r => (true, r)
    | '+' :: r => (false, r)
    | r => (false, r)
  let neg := signBody.1
  let body := signBody.2
  let ip := body.takeWhile Char.isDigit
  let rest := body.dropWhile Char.isDigit
  let val? : Option ℚ :=
    match rest with
    | [] => if ip = [] then none else some ((digitsVal ip : ℚ))
    | '.' :: fp =>
      if fp.all Char.isDigit ∧ (ip ≠ [] ∨ fp ≠ []) then
        some ((digitsVal ip : ℚ) + (digitsVal fp : ℚ) / (10 : ℚ) ^ fp.length)
      else none
    | _ => none
  val?.map (fun v => if neg then -v else v)

/-- `parse_quantity` from `desktop_app.py` lines 288-300: strip, drop internal
spaces, resolve `,`/`.` as thousands separator or decimal point, then parse as
a number (`None` on failure). -/
def parse_quantity (value : Str) : Option ℚ :=
  let text := pyStrip value
  if text = [] then none
  else
    let text1 := text.filter (· ≠ ' ')
    let text2 :=
      if ',' ∈ text1 ∧ '.' ∈ text1 then text1.filter (· ≠ ',')
      else if ',' ∈ text1 then text1.map (fun c => if c = ',' then '.' else c)
      else text1
    pyFloat text2

/-- One pass of Python `text.replace("  ", " ")`: replace non-overlapping
double spaces left to right. -/
def replaceDouble : Str → Str
  | [] => []
  | [c] => [c]
  | c :: d :: rest =>
    if c = ' ' ∧ d = ' ' then ' ' :: replaceDouble rest
    else c :: replaceDouble (d :: rest)

/-- The loop condition `"  " in text` of `normalize_product`. -/
def hasDoubleSpace (s : Str) : Bool := subIn ([' ', ' ']) s

/-- The `while "  " in text` loop of `normalize_product`, with explicit fuel.
Each iteration strictly shortens the string (`replaceDouble_length_lt` below),
so `s.length` iterations always reach the loop's exit condition; the fuel keeps
the definition structurally recursive and executable. -/
def collapseIter : Nat → Str → Str
  | 0, s => s
  | n + 1, s => if hasDoubleSpace s then collapseIter n (replaceDouble s) else s

/-- `normalize_product` from `desktop_app.py` lines 303-307: strip, lower-case,
then repeatedly replace double spaces until none remain. -/
def normalize_product (value : Str) : Str :=
  let text := (pyStrip value).map pyLowerChar
  collapseIter text.length text

/-- `format_num` from `build_summary_for_colleague`: Python converts an
integral float to `int` purely for display; the numeric value is unchanged, so
on exact rationals the conversion is the identity on both branches. -/
def format_num (value : ℚ) : ℚ := if value.den = 1 then value else value

/-- An output row `(number, predal, date, product, qty, link)` as assembled by
the worker loops and consumed by `build_output` and
`build_summary_for_colleague`. -/
structure Row where
  number : Str
  predal : Str
  date : Str
  product : Str
  qty : Str
  link : Option Str
deriving DecidableEq

/-- `product_map = {normalize_product(p): p for p in PRODUCT_ORDER}`
(`desktop_app.py` line 313).  A Python dict comprehension keeps the last
binding for a duplicated key and `List.lookup` keeps the first, hence the
`reverse`. -/
def productMap : List (Str × Str) :=
  (PRODUCT_ORDER.reverse).map (fun p => (normalize_product p, p))

/-- One iteration of the totals-accumulation loop of
`build_summary_for_colleague` (`desktop_app.py` lines 317-328).  The Python
dict `totals` is modelled as a finitely-supported function with default `0.0`,
exactly how the code reads it (`totals.get(key, 0.0)`); the key's date
component `str(date_str) if date_str else ""` equals `date_str` in both
cases. -/
def summaryStep (t : Str × Str → ℚ) (r : Row) : Str × Str → ℚ :=
  match List.lookup (normalize_product r.product) productMap with
  | none => t
  | some prod =>
    match parse_quantity r.qty with
    | none => t
    | some amount => fun k => if k = (prod, r.date) then t k + amount else t k

/-- The fully accumulated `totals` dict for a group of rows. -/
def totalsOf (rows : List Row) : Str × Str → ℚ :=
  rows.foldl summaryStep (fun _ => 0)

/-- The `date_set` collection of `build_summary_for_colleague`: the non-empty
`date` values of the group, with multiplicity (the set view is recovered by
`dedup` below). -/
def datesOf (rows : List Row) : List Str :=
  rows.filterMap (fun r => if r.date ≠ [] then some r.date else none)

/-- Python string `<=`, the order `sorted` uses: lexicographic by code
point. -/
def strLe (a b : Str) : Bool := decide (a ≤ b)

/-- `date_headers = sorted(date_set)` followed by the placeholder fallback
(`desktop_app.py` lines 330-332).  The Python set is modelled as `dedup` of the
collected values; `sorted` is `mergeSort` by code-point order. -/
def dateHeadersOf (rows : List Row) : List Str :=
  let hs := ((datesOf rows).dedup).mergeSort strLe
  if hs = [] then [("Дата").data] else hs

/-- `totals_for_products` from `desktop_app.py` lines 337-341: per date column,
the sum of the accumulated totals of the given products. -/
def totalsForProducts (t : Str × Str → ℚ) (hs : List Str) (products : List Str) :
    List ℚ :=
  hs.map (fun d => (products.map (fun p => t (p, d))).sum)

/-- `build_summary_for_colleague` from `desktop_app.py` lines 310-356: the date
headers and the summary rows, one row per catalog product in catalog order with
a blank-labelled brand subtotal row right after each brand boundary.  The
`for prod in PRODUCT_ORDER` loop appending one or two rows per product is
rendered as `flatMap`. -/
def build_summary_for_colleague (rows : List Row) :
    List Str × List (Str × List ℚ) :=
  let t := totalsOf rows
  let hs := dateHeadersOf rows
  let summary_rows := PRODUCT_ORDER.flatMap (fun prod =>
    (prod, hs.map (fun d => format_num (t (prod, d)))) ::
    (match List.lookup prod BRAND_BOUNDARIES with
     | some brand =>
       [(([] : Str),
         (totalsForProducts t hs ((List.lookup brand BRAND_PRODUCTS).getD [])).map
           format_num)]
     | none => []))
  (hs, summary_rows)

/-- The sentinel group name `"Неизвестен"` for rows with a blank responsible
person (`desktop_app.py` line 258). -/
def SENTINEL : Str := ("Неизвестен").data

/-- The group key of a row: its stripped `predal` value, or the sentinel when
that is blank (`desktop_app.py` line 258). -/
def nameOf (r : Row) : Str :=
  if pyStrip r.predal ≠ [] then pyStrip r.predal else SENTINEL

/-- One iteration of the grouping loop of `build_output` (`desktop_app.py`
lines 254-262): append the row to its group's bucket, creating the group at the
end of the order on first appearance.  `colleague_order` and the insertion-
ordered dict `by_colleague` are fused into one ordered association list, which
is exactly how lines 265-269 consume them. -/
def groupInsert (acc : List (Str × List Row)) (r : Row) : List (Str × List Row) :=
  if acc.any (fun e => e.1 = nameOf r) then
    acc.map (fun e => if e.1 = nameOf r then (e.1, e.2 ++ [r]) else e)
  else acc ++ [(nameOf r, [r])]

/-- The colleague groups of `build_output`, in first-appearance order, each
with its rows in input order. -/
def colleagueGroups (rows : List Row) : List (Str × List Row) :=
  rows.foldl groupInsert []

/-- The rows `build_output` writes for a given group name: the bucket of the
first (only) entry with that name, or `[]` when no such sheet exists. -/
def groupRows (name : Str) (groups : List (Str × List Row)) : List Row :=
  ((groups.find? (fun e => e.1 == name)).map (fun e => e.2)).getD []

/-- The outcome of one call of the fetch collaborator
(`fetch_html(link, timeout)`): the document text and content type, or a
transport failure (network error, timeout, non-2xx raised by
`raise_for_status`). -/
inductive FetchResult where
  | ok (html ctype : Str)
  | err
deriving DecidableEq

/-- An input row `(number, client, date_str, product_str, qty_str, link)` as
returned by `load_rows`. -/
structure RRow where
  number : Str
  client : Str
  date : Str
  product : Str
  qty : Str
  link : Option Str
deriving DecidableEq

/-- The extracted-and-cleaned value one successful or failed fetch of a link
produces in `Worker.run` (`desktop_app.py` lines 399-407): on success, extract
only when the content type contains `"text/html"`, then `clean_predal`; on a
transport error, the empty string. -/
def fetchValue (chunker : Str → List Str) (oracle : Str → FetchResult) (l : Str) :
    Str :=
  match oracle l with
  | .ok html ctype =>
    clean_predal
      (if subIn (("text/html").data) ctype then
        (extract_predal_from_chunks (chunker html)).getD []
      else [])
  | .err => []

/-- One iteration of the row loop of `Worker.run` (`desktop_app.py` lines
391-412).  The state is `(url_cache, output_rows)` plus an observational trace
of the links actually passed to `fetch_html`, in call order (the trace is
instrumentation only; it does not influence the computation).  `html_to_chunks`
delegates to the standard library HTML parser and is abstracted as the
`chunker` collaborator; the fetch transport is the deterministic per-run
`oracle`.  On a cache hit Python reads `url_cache[link] or ""`, which is the
identity on the stored strings (it maps `""` to `""`). -/
def workerStep (chunker : Str → List Str) (oracle : Str → FetchResult)
    (acc : List (Str × Str) × List Row × List Str) (r : RRow) :
    List (Str × Str) × List Row × List Str :=
  let cache := acc.1
  let out := acc.2.1
  let trace := acc.2.2
  match r.link with
  | none =>
    (cache,
     out ++ [⟨r.number, [], r.date, r.product, r.qty, none⟩],
     trace)
  | some l =>
    match List.lookup l cache with
    | some v =>
      (cache,
       out ++ [⟨r.number, v, r.date, r.product, r.qty, some l⟩],
       trace)
    | none =>
      let p := fetchValue chunker oracle l
      (cache ++ [(l, p)],
       out ++ [⟨r.number, p, r.date, r.product, r.qty, some l⟩],
       trace ++ [l])

/-- The whole row loop of `Worker.run`: process the loaded rows in order,
starting from an empty cache. -/
def workerProcess (chunker : Str → List Str) (oracle : Str → FetchResult)
    (rows : List RRow) : List (Str × Str) × List Row × List Str :=
  rows.foldl (workerStep chunker oracle) ([], [], [])

/-!  Spec-side definitions.  Each of the following is written from the words of
a claim (or of its amended form) and is compared against the source-translated
definitions above; none of them is used inside a source definition. -/

/-- Spec wording of the field-extraction rule (claim C1): scan chunks in order
for the case-insensitive marker; at the first chunk containing it take the
original-case substring after the marker's end, strip leading spaces, colons
and no-break-spaces, and return it if non-empty; else if a next chunk exists
that does not end with a colon return that next chunk trimmed; else continue
scanning subsequent chunks; absent if no chunk ever yields a value. -/
def extractSpec : List Str → Option Str
  | [] => none
  | c :: rest =>
    if subIn MARKER (c.map pyUpperChar) then
      let v := (c.drop (((findSub MARKER (c.map pyUpperChar)).getD 0) +
        MARKER.length)).dropWhile isMarkerPunct
      if v ≠ [] then some v
      else
        match rest with
        | next :: _ =>
          if endsColon next = false then some (pyStrip next) else extractSpec rest
        | [] => none
    else extractSpec rest

/-- Spec wording of quantity parsing (claim C4): trim and remove internal
spaces; with both `,` and `.` drop the commas; with only `,` read it as the
decimal point; otherwise parse as a plain number. -/
def parseQuantitySpec (value : Str) : Option ℚ :=
  let t := (pyStrip value).filter (· ≠ ' ')
  if ',' ∈ t ∧ '.' ∈ t then pyFloat (t.filter (· ≠ ','))
  else if ',' ∈ t then pyFloat (t.map (fun c => if c = ',' then '.' else c))
  else pyFloat t

/-- Reference summary cell of claim C2: for a catalog product and a date
column, the sum of the parsed quantities of exactly those rows whose normalized
product matches that catalog entry and whose date equals the column; rows with
unparsable quantity contribute nothing. -/
def specCell (rows : List Row) (p d : Str) : ℚ :=
  (rows.map (fun r =>
    if normalize_product r.product = normalize_product p ∧ r.date = d then
      (parse_quantity r.qty).getD 0
    else 0)).sum

/-- The summary-row layout stated by claim C3: one row per catalog product in
catalog order, its cells given by the reference cell value, and immediately
after each brand-boundary product one blank-labelled subtotal row whose cell is
the sum of the per-product totals over that boundary's brand group. -/
def summaryRowsSpec (rows : List Row) (hs : List Str) : List (Str × List ℚ) :=
  PRODUCT_ORDER.flatMap (fun p =>
    (p, hs.map (fun d => specCell rows p d)) ::
    (match List.lookup p BRAND_BOUNDARIES with
     | some brand =>
       [(([] : Str),
         hs.map (fun d =>
           ((((List.lookup brand BRAND_PRODUCTS).getD []).map
             (fun q => specCell rows q d)).sum)))]
     | none => []))

/-- First-appearance order of the distinct values of a list (claims C5, C6). -/
def firstAppearances {α : Type _} [DecidableEq α] (l : List α) : List α :=
  l.foldl (fun acc x => if x ∈ acc then acc else acc ++ [x]) []

/-- Fuelled iteration of first-occurrence removal of the boilerplate phrase
(claim C7's "remove it wherever it occurs"). -/
def removeBoilerIter : Nat → Str → Str
  | 0, s => s
  | n + 1, s =>
    match findSub BOILER (s.map pyLowerChar) with
    | some idx => removeBoilerIter n (s.take idx ++ s.drop (idx + BOILER.length))
    | none => s

/-- Removal of every case-insensitive occurrence of the boilerplate phrase, as
iterated first-occurrence removal.  Every removal step deletes the phrase's 23
characters, so `s.length` iterations always suffice to reach the
no-occurrence fixpoint; the explicit fuel keeps the definition structurally
recursive and executable. -/
def removeBoilerAll (s : Str) : Str := removeBoilerIter s.length s

/-- Claim C7 as stated, as a whole-value cleanup: strip, remove every
case-insensitive occurrence of the boilerplate phrase, re-trim marker
punctuation. -/
def cleanSpecAll (value : Str) : Str :=
  stripMarkerPunct (pyStrip (removeBoilerAll (pyStrip value)))

/-- Removal of the first case-insensitive occurrence of the boilerplate phrase
only (the amended claim C7). -/
def removeBoilerFirst (s : Str) : Str :=
  match findSub BOILER (s.map pyLowerChar) with
  | some idx => s.take idx ++ s.drop (idx + BOILER.length)
  | none => s

/-- The amended claim C7 cleanup: trim, remove the first case-insensitive
occurrence of the boilerplate phrase, re-trim whitespace, then strip marker
punctuation. -/
def cleanSpecFirst (value : Str) : Str :=
  stripMarkerPunct (pyStrip (removeBoilerFirst (pyStrip value)))

/-- Single-pass collapse of every run of spaces to one space (the amended
claim C8 normalization); the flag records whether the previous kept character
position was inside a run of spaces. -/
def collapseSpaceRuns : Bool → Str → Str
  | _, [] => []
  | prev, c :: rest =>
    if c = ' ' then
      if prev then collapseSpaceRuns true rest
      else ' ' :: collapseSpaceRuns true rest
    else c :: collapseSpaceRuns false rest

/-- The amended claim C8 normalization: trim, lower-case, collapse every run of
internal space characters to a single space. -/
def normSpec (value : Str) : Str :=
  collapseSpaceRuns false ((pyStrip value).map pyLowerChar)

/-- Single-pass collapse of every run of whitespace to one space character
(claim C8 as stated, which speaks of whitespace rather than spaces). -/
def collapseWsRuns : Bool → Str → Str
  | _, [] => []
  | prev, c :: rest =>
    if pyIsSpace c then
      if prev then collapseWsRuns true rest
      else ' ' :: collapseWsRuns true rest
    else c :: collapseWsRuns false rest

/-- Claim C8 as stated: trim, lower-case, collapse every run of internal
whitespace to a single space. -/
def normSpecWs (value : Str) : Str :=
  collapseWsRuns false ((pyStrip value).map pyLowerChar)

theorem extract_cli_eq_desktop :
    ∀ chunks, extract_predal_from_chunks_cli chunks = extract_predal_from_chunks chunks
  | [] => rfl
  | c :: rest => by
    simp only [extract_predal_from_chunks_cli, extract_predal_from_chunks]
    rw [extract_cli_eq_desktop rest]

theorem extract_web_eq_desktop :
    ∀ chunks, extract_predal_from_chunks_web chunks = extract_predal_from_chunks chunks
  | [] => rfl
  | c :: rest => by
    simp only [extract_predal_from_chunks_web, extract_predal_from_chunks]
    rw [extract_web_eq_desktop rest]

theorem extract_table_eq_desktop :
    ∀ chunks, extract_predal_from_chunks_table chunks = extract_predal_from_chunks chunks
  | [] => rfl
  | c :: rest => by
    simp only [extract_predal_from_chunks_table, extract_predal_from_chunks]
    rw [extract_table_eq_desktop rest]

/-- C9: the field-extraction function duplicated across the four entry points
(`extract_predal.py`, `lagardere_table.py`, `app.py`, `desktop_app.py`) is
extensionally equal: on every chunk sequence all four copies of
`extract_predal_from_chunks` return the same result. -/
theorem claim_C9_four_copies_extensionally_equal :
    ∀ chunks,
      extract_predal_from_chunks_cli chunks = extract_predal_from_chunks chunks ∧
      extract_predal_from_chunks_web chunks = extract_predal_from_chunks chunks ∧
      extract_predal_from_chunks_table chunks = extract_predal_from_chunks chunks :=
  fun chunks =>
    ⟨extract_cli_eq_desktop chunks, extract_web_eq_desktop chunks,
     extract_table_eq_desktop chunks⟩

/-- C10: whenever the field extractor returns a value rather than `none`, that
value is a non-empty string. -/
theorem claim_C10_present_value_nonempty :
    ∀ chunks v, extract_predal_from_chunks chunks = some v → v ≠ []
  | [], v => by simp [extract_predal_from_chunks]
  | c :: rest, v => by
    intro hv
    cases rest with
    | nil =>
      simp only [extract_predal_from_chunks] at hv
      split at hv
      · split at hv
        · rename_i ha
          cases hv
          exact ha
        · cases hv
      · cases hv
    | cons next t =>
      simp only [extract_predal_from_chunks] at hv
      split at hv
      · split at hv
        · rename_i ha
          cases hv
          exact ha
        · split at hv
          · rename_i hn
            cases hv
            exact hn.1
          · exact claim_C10_present_value_nonempty (next :: t) v hv
      · exact claim_C10_present_value_nonempty (next :: t) v hv

/-- C10 witness: a concrete chunk list on which the extractor returns a value,
and that value is non-empty. -/
theorem claim_C10_present_value_nonempty_witness :
    extract_predal_from_chunks [("ПРЕДАЛ: Иван").data] = some (("Иван").data) ∧
      ("Иван").data ≠ [] :=
  ⟨by decide, claim_C10_present_value_nonempty [("ПРЕДАЛ: Иван").data] (("Иван").data)
    (by decide)⟩

/-- C1: on chunk sequences whose chunks are non-empty and whitespace-trimmed
(the chunker's output invariant, assumed by the claim), the extractor agrees
with the claim's scan description: take the stripped remainder of the first
marker chunk, fall back to a next chunk not ending in a colon, otherwise keep
scanning, and return `none` if no chunk ever yields a value. -/
theorem claim_C1_extractor_matches_spec :
    ∀ chunks, (∀ c ∈ chunks, c ≠ [] ∧ pyStrip c = c) →
      extract_predal_from_chunks chunks = extractSpec chunks
  | [] => fun _ => rfl
  | c :: rest => fun h => by
    have hrest : ∀ x ∈ rest, x ≠ [] ∧ pyStrip x = x :=
      fun x hx => h x (List.mem_cons_of_mem _ hx)
    have ih := claim_C1_extractor_matches_spec rest hrest
    cases rest with
    | nil => simp only [extract_predal_from_chunks, extractSpec]
    | cons next t =>
      have hne : next ≠ [] := (h next (by simp)).1
      have hst : pyStrip next = next := (h next (by simp)).2
      conv_lhs => rw [extract_predal_from_chunks]
      conv_rhs => rw [extractSpec]
      simp only [ih, hst, hne, ne_eq, not_false_iff, true_and]

/-- C1 witness: a concrete trimmed chunk list, on which the extractor and the
spec description agree (both produce the name). -/
theorem claim_C1_extractor_matches_spec_witness :
    (∀ c ∈ [("Предал: Иван").data], c ≠ [] ∧ pyStrip c = c) ∧
      extract_predal_from_chunks [("Предал: Иван").data] =
        extractSpec [("Предал: Иван").data] :=
  ⟨by decide, claim_C1_extractor_matches_spec [("Предал: Иван").data] (by decide)⟩

/-- C4: quantity parsing follows the claim's trim / de-space / comma-dot rule,
and `"1 234,5"`, `"10,5"`, `"7"` parse to 1234.5, 10.5, 7 while `"abc"` yields
no numeric value. -/
theorem claim_C4_quantity_parsing :
    (∀ s, parse_quantity s = parseQuantitySpec s) ∧
    parse_quantity (("1 234,5").data) = some ((2469 : ℚ) / 2) ∧
    parse_quantity (("10,5").data) = some ((21 : ℚ) / 2) ∧
    parse_quantity (("7").data) = some 7 ∧
    parse_quantity (("abc").data) = none := by
  refine ⟨?_, ?_, ?_, ?_, ?_⟩
  · intro s
    simp only [parse_quantity, parseQuantitySpec]
    by_cases h : pyStrip s = []
    · rw [h]
      rfl
    · rw [if_neg h]
      split_ifs <;> rfl
  · have h1 : parse_quantity (("1 234,5").data) =
        some ((digitsVal (("1234").data) : ℚ) +
          (digitsVal (("5").data) : ℚ) / (10 : ℚ) ^ 1) := rfl
    have h2 : digitsVal (("1234").data) = 1234 := rfl
    have h3 : digitsVal (("5").data) = 5 := rfl
    rw [h1, h2, h3]
    norm_num
  · have h1 : parse_quantity (("10,5").data) =
        some ((digitsVal (("10").data) : ℚ) +
          (digitsVal (("5").data) : ℚ) / (10 : ℚ) ^ 1) := rfl
    have h2 : digitsVal (("10").data) = 10 := rfl
    have h3 : digitsVal (("5").data) = 5 := rfl
    rw [h1, h2, h3]
    norm_num
  · have h1 : parse_quantity (("7").data) = some ((digitsVal (("7").data) : ℚ)) := rfl
    have h2 : digitsVal (("7").data) = 7 := rfl
    rw [h1, h2]
    norm_num
  · rfl

theorem dropWhile_dropWhile (p : Char → Bool) :
    ∀ s : Str, (s.dropWhile p).dropWhile p = s.dropWhile p := by
  intro s
  induction s with
  | nil => rfl
  | cons c t ih =>
    by_cases h : p c = true
    · simp [List.dropWhile_cons, h, ih]
    · simp [List.dropWhile_cons, h]

theorem dropWhile_cons_head_false (p : Char → Bool) :
    ∀ (s : Str) {c : Char} {t : Str}, s.dropWhile p = c :: t → p c = false := by
  intro s
  induction s with
  | nil => intro c t h; cases h
  | cons a u ih =>
    intro c t h
    rw [List.dropWhile_cons] at h
    by_cases ha : p a = true
    · rw [if_pos ha] at h
      exact ih h
    · rw [if_neg ha] at h
      cases h
      simpa using ha

theorem stripBoth_idem (p : Char → Bool) (s : Str) :
    stripBoth p (stripBoth p s) = stripBoth p s := by
  have hdecomp : s.dropWhile p =
      ((s.dropWhile p).reverse.dropWhile p).reverse ++
        ((s.dropWhile p).reverse.takeWhile p).reverse := by
    conv_lhs =>
      rw [← List.reverse_reverse (s.dropWhile p),
        ← List.takeWhile_append_dropWhile p (s.dropWhile p).reverse,
        List.reverse_append]
  have hR : (((s.dropWhile p).reverse.dropWhile p).reverse).dropWhile p =
      ((s.dropWhile p).reverse.dropWhile p).reverse := by
    cases hcase : ((s.dropWhile p).reverse.dropWhile p).reverse with
    | nil => rfl
    | cons c t =>
      have hc : p c = false := by
        apply dropWhile_cons_head_false p s
        rw [hdecomp, hcase]
        rfl
      rw [List.dropWhile_cons, if_neg (by simp [hc])]
  show (((stripBoth p s).dropWhile p).reverse.dropWhile p).reverse = stripBoth p s
  have hs1 : (stripBoth p s).dropWhile p = stripBoth p s := hR
  rw [hs1]
  show (((((s.dropWhile p).reverse.dropWhile p).reverse).reverse).dropWhile p).reverse =
    ((s.dropWhile p).reverse.dropWhile p).reverse
  rw [List.reverse_reverse, dropWhile_dropWhile]

theorem pyStrip_idem (s : Str) : pyStrip (pyStrip s) = pyStrip s :=
  stripBoth_idem pyIsSpace s

/-- C7 counterexample: `clean_predal` removes only the first occurrence of the
boilerplate phrase, so on a value containing the phrase twice it differs from
the claim's remove-every-occurrence cleanup, and an occurrence of the phrase
survives in its result. -/
theorem claim_C7_counterexample_second_occurrence_kept :
    ¬ (clean_predal (("(име, фамилия, подпис):(име, фамилия, подпис):Иван").data) =
        cleanSpecAll (("(име, фамилия, подпис):(име, фамилия, подпис):Иван").data)) ∧
    subIn BOILER
      ((clean_predal
        (("(име, фамилия, подпис):(име, фамилия, подпис):Иван").data)).map pyLowerChar)
      = true := by
  constructor
  · decide
  · decide

/-- C7 (amended): the cleanup stage strips the value, removes the *first*
case-insensitive occurrence of the fixed boilerplate phrase (re-trimming
whitespace), then strips leading/trailing spaces, colons and no-break spaces;
it is a separate stage composed after the scan. -/
theorem claim_C7_cleanup_removes_first_occurrence :
    ∀ v, clean_predal v = cleanSpecFirst v := by
  intro v
  by_cases hv : v = []
  · subst hv
    rfl
  · simp only [clean_predal, cleanSpecFirst, removeBoilerFirst, if_neg hv]
    cases hfind : findSub BOILER ((pyStrip v).map pyLowerChar) with
    | some idx => simp [hfind]
    | none => simp [hfind, pyStrip_idem]

theorem subIn_cons (pat : Str) (x : Char) (xs : Str) :
    subIn pat (x :: xs) = (pat.isPrefixOf (x :: xs) || subIn pat xs) := by
  simp only [subIn, findSub]
  by_cases h : pat.isPrefixOf (x :: xs) = true
  · simp [h]
  · simp [h, Option.isSome_map]

theorem hasDS_nil : hasDoubleSpace [] = false := by decide

theorem hasDS_single (c : Char) : hasDoubleSpace [c] = false := by
  simp [hasDoubleSpace, subIn_cons, List.isPrefixOf, subIn, findSub]

theorem twoSpaces_isPrefixOf (c d : Char) (u : Str) :
    ([' ', ' '] : Str).isPrefixOf (c :: d :: u) = true ↔ (c = ' ' ∧ d = ' ') := by
  constructor
  · intro h'
    simp only [List.isPrefixOf, Bool.and_eq_true, beq_iff_eq, and_true] at h'
    exact ⟨h'.1.symm, h'.2.symm⟩
  · rintro ⟨rfl, rfl⟩
    simp [List.isPrefixOf]

theorem hasDS_cons2 (c d : Char) (u : Str) :
    hasDoubleSpace (c :: d :: u) = true ↔
      ((c = ' ' ∧ d = ' ') ∨ hasDoubleSpace (d :: u) = true) := by
  rw [hasDoubleSpace, subIn_cons, Bool.or_eq_true]
  exact or_congr (twoSpaces_isPrefixOf c d u) Iff.rfl

theorem replaceDouble_length_le : ∀ s : Str, (replaceDouble s).length ≤ s.length
  | [] => le_refl _
  | [_] => le_refl _
  | c :: d :: u => by
    simp only [replaceDouble]
    split_ifs with h
    · have := replaceDouble_length_le u
      simp only [List.length_cons]
      omega
    · have := replaceDouble_length_le (d :: u)
      simp only [List.length_cons] at *
      omega

theorem replaceDouble_length_lt :
    ∀ s : Str, hasDoubleSpace s = true → (replaceDouble s).length < s.length
  | [] => by intro h; rw [hasDS_nil] at h; cases h
  | [c] => by intro h; rw [hasDS_single] at h; cases h
  | c :: d :: u => by
    intro h
    simp only [replaceDouble]
    split_ifs with hcd
    · have := replaceDouble_length_le u
      simp only [List.length_cons]
      omega
    · have h2 : hasDoubleSpace (d :: u) = true := by
        rcases (hasDS_cons2 c d u).mp h with h' | h'
        · exact absurd h' hcd
        · exact h'
      have := replaceDouble_length_lt (d :: u) h2
      simp only [List.length_cons] at *
      omega

theorem replaceDouble_cons (c : Char) (u : Str)
    (h : ¬(c = ' ' ∧ u.head? = some ' ')) :
    replaceDouble (c :: u) = c :: replaceDouble u := by
  cases u with
  | nil => rfl
  | cons d w =>
    simp only [replaceDouble]
    rw [if_neg]
    rintro ⟨h1, h2⟩
    exact h ⟨h1, by simp [h2]⟩

theorem collapse_true_eq (s : Str) :
    collapseSpaceRuns true s = collapseSpaceRuns false (s.dropWhile (· == ' ')) := by
  induction s with
  | nil => rfl
  | cons c t ih =>
    by_cases hc : c = ' '
    · subst hc
      simpa [collapseSpaceRuns, List.dropWhile_cons] using ih
    · simp [collapseSpaceRuns, hc, List.dropWhile_cons]

theorem replaceDouble_dropWhile : ∀ t : Str,
    (replaceDouble t).dropWhile (· == ' ') = replaceDouble (t.dropWhile (· == ' '))
  | [] => rfl
  | [c] => by
    by_cases hc : c = ' '
    · subst hc
      rfl
    · simp [replaceDouble, List.dropWhile_cons, hc]
  | c :: d :: u => by
    by_cases hcd : c = ' ' ∧ d = ' '
    · obtain ⟨hc, hd⟩ := hcd
      subst hc
      subst hd
      rw [show replaceDouble (' ' :: ' ' :: u) = ' ' :: replaceDouble u from by
        simp [replaceDouble]]
      rw [List.dropWhile_cons, if_pos (by simp), List.dropWhile_cons, if_pos (by simp),
        List.dropWhile_cons, if_pos (by simp)]
      exact replaceDouble_dropWhile u
    · rw [replaceDouble_cons c (d :: u) (by simpa using hcd)]
      by_cases hc : c = ' '
      · subst hc
        have hd : d ≠ ' ' := by
          intro hd
          exact hcd ⟨rfl, hd⟩
        rw [replaceDouble_cons d u (by simp [hd])]
        rw [List.dropWhile_cons, if_pos (by simp), List.dropWhile_cons,
          if_neg (by simp [hd]), List.dropWhile_cons, if_pos (by simp),
          List.dropWhile_cons, if_neg (by simp [hd])]
        rw [replaceDouble_cons d u (by simp [hd])]
      · rw [List.dropWhile_cons, if_neg (by simp [hc]), List.dropWhile_cons,
          if_neg (by simp [hc])]
        rw [replaceDouble_cons c (d :: u) (by simpa using hcd)]

theorem collapse_rep : ∀ s : Str,
    collapseSpaceRuns false (replaceDouble s) = collapseSpaceRuns false s
  | [] => rfl
  | [_] => rfl
  | c :: d :: u => by
    by_cases hcd : c = ' ' ∧ d = ' '
    · obtain ⟨hc, hd⟩ := hcd
      subst hc
      subst hd
      rw [show replaceDouble (' ' :: ' ' :: u) = ' ' :: replaceDouble u from by
        simp [replaceDouble]]
      rw [show collapseSpaceRuns false (' ' :: replaceDouble u) =
        ' ' :: collapseSpaceRuns true (replaceDouble u) from by simp [collapseSpaceRuns]]
      rw [show collapseSpaceRuns false (' ' :: ' ' :: u) =
        ' ' :: collapseSpaceRuns true (' ' :: u) from by simp [collapseSpaceRuns]]
      rw [show collapseSpaceRuns true (' ' :: u) = collapseSpaceRuns true u from by
        simp [collapseSpaceRuns]]
      rw [collapse_true_eq, collapse_true_eq, replaceDouble_dropWhile u]
      rw [collapse_rep (u.dropWhile (· == ' '))]
    · rw [replaceDouble_cons c (d :: u) (by simpa using hcd)]
      by_cases hc : c = ' '
      · subst hc
        have hd : d ≠ ' ' := by
          intro hd
          exact hcd ⟨rfl, hd⟩
        rw [show collapseSpaceRuns false (' ' :: replaceDouble (d :: u)) =
          ' ' :: collapseSpaceRuns true (replaceDouble (d :: u)) from by
            simp [collapseSpaceRuns]]
        rw [show collapseSpaceRuns false (' ' :: d :: u) =
          ' ' :: collapseSpaceRuns true (d :: u) from by simp [collapseSpaceRuns]]
        rw [collapse_true_eq, collapse_true_eq, replaceDouble_dropWhile (d :: u)]
        rw [collapse_rep ((d :: u).dropWhile (· == ' '))]
      · rw [show collapseSpaceRuns false (c :: replaceDouble (d :: u)) =
          c :: collapseSpaceRuns false (replaceDouble (d :: u)) from by
            simp [collapseSpaceRuns, hc]]
        rw [show collapseSpaceRuns false (c :: d :: u) =
          c :: collapseSpaceRuns false (d :: u) from by simp [collapseSpaceRuns, hc]]
        rw [collapse_rep (d :: u)]
termination_by s => s.length
decreasing_by
  · simp only [List.length_cons]
    have := List.Sublist.length_le (List.dropWhile_sublist (l := u) (· == ' '))
    omega
  · simp only [List.length_cons]
    have := List.Sublist.length_le (List.dropWhile_sublist (l := d :: u) (· == ' '))
    simp only [List.length_cons] at this
    omega
  · simp [List.length_cons]

theorem collapse_no_ds : ∀ s : Str,
    hasDoubleSpace s = false → collapseSpaceRuns false s = s
  | [] => fun _ => rfl
  | [c] => fun _ => by
    by_cases hc : c = ' ' <;> simp [collapseSpaceRuns, hc]
  | c :: d :: u => fun h => by
    have hcd : ¬(c = ' ' ∧ d = ' ') := by
      intro hcd
      have := (hasDS_cons2 c d u).mpr (Or.inl hcd)
      rw [h] at this
      cases this
    have hdu : hasDoubleSpace (d :: u) = false := by
      cases hds : hasDoubleSpace (d :: u) with
      | false => rfl
      | true =>
        have := (hasDS_cons2 c d u).mpr (Or.inr hds)
        rw [h] at this
        cases this
    have ih := collapse_no_ds (d :: u) hdu
    by_cases hc : c = ' '
    · subst hc
      have hd : d ≠ ' ' := fun hd => hcd ⟨rfl, hd⟩
      have hu : collapseSpaceRuns false u = u := by
        have h2 := ih
        simp only [collapseSpaceRuns, if_neg hd] at h2
        exact (List.cons.injEq _ _ _ _).mp h2 |>.2
      simp [collapseSpaceRuns, hd, hu]
    · rw [show collapseSpaceRuns false (c :: d :: u) =
        c :: collapseSpaceRuns false (d :: u) from by simp [collapseSpaceRuns, hc]]
      rw [ih]

theorem collapseIter_eq : ∀ (n : Nat) (s : Str), s.length ≤ n →
    collapseIter n s = collapseSpaceRuns false s
  | 0, s => fun h => by
    have hnil : s = [] := List.eq_nil_of_length_eq_zero (Nat.le_zero.mp h)
    subst hnil
    rfl
  | n + 1, s => fun h => by
    by_cases hds : hasDoubleSpace s = true
    · rw [show collapseIter (n + 1) s = collapseIter n (replaceDouble s) from by
        simp [collapseIter, hds]]
      have hlt := replaceDouble_length_lt s hds
      rw [collapseIter_eq n (replaceDouble s) (by omega)]
      exact collapse_rep s
    · have hf : hasDoubleSpace s = false := by
        cases hcase : hasDoubleSpace s with
        | false => rfl
        | true => exact absurd hcase hds
      rw [show collapseIter (n + 1) s = s from by simp [collapseIter, hf]]
      exact (collapse_no_ds s hf).symm

theorem normalize_product_eq_normSpec (v : Str) : normalize_product v = normSpec v := by
  rw [normalize_product, normSpec]
  exact collapseIter_eq _ _ (le_refl _)

theorem lookup_pair_mem {α β : Type _} [BEq α] [LawfulBEq α] :
    ∀ (l : List (α × β)) (k : α) (b : β), List.lookup k l = some b → (k, b) ∈ l := by
  intro l
  induction l with
  | nil => intro k b h; cases h
  | cons e t ih =>
    intro k b h
    obtain ⟨k', b'⟩ := e
    rw [List.lookup_cons] at h
    cases hk : k == k' with
    | true =>
      rw [hk] at h
      cases h
      have : k = k' := by simpa using hk
      subst this
      exact List.mem_cons_self _ _
    | false =>
      rw [hk] at h
      exact List.mem_cons_of_mem _ (ih k b h)

theorem lookup_map_self (f : Str → Str) : ∀ (m : List Str) (p : Str),
    (m.map f).Nodup → p ∈ m →
    List.lookup (f p) (m.map (fun q => (f q, q))) = some p := by
  intro m
  induction m with
  | nil => intro p _ hp; cases hp
  | cons q t ih =>
    intro p hnd hp
    rw [List.map_cons, List.lookup_cons]
    rcases List.mem_cons.mp hp with hpq | hpt
    · subst hpq
      simp
    · have hfne : f p ≠ f q := by
        intro hcontra
        have hqmem : f q ∈ t.map f := by
          rw [← hcontra]
          exact List.mem_map_of_mem f hpt
        rw [List.map_cons] at hnd
        exact (List.nodup_cons.mp hnd).1 hqmem
      have : (f p == f q) = false := by
        simpa using hfne
      rw [this]
      rw [List.map_cons] at hnd
      exact ih p (List.nodup_cons.mp hnd).2 hpt

theorem nodup_normalized : (PRODUCT_ORDER.map normalize_product).Nodup := by decide

theorem productMap_lookup_some (s p : Str)
    (h : List.lookup s productMap = some p) :
    p ∈ PRODUCT_ORDER ∧ normalize_product p = s := by
  have hmem := lookup_pair_mem _ _ _ h
  rw [productMap, List.mem_map] at hmem
  obtain ⟨q, hq, heq⟩ := hmem
  injection heq with h1 h2
  subst h2
  exact ⟨List.mem_reverse.mp hq, h1⟩

theorem productMap_lookup_self (p : Str) (hp : p ∈ PRODUCT_ORDER) :
    List.lookup (normalize_product p) productMap = some p := by
  have h1 : (PRODUCT_ORDER.reverse.map normalize_product).Nodup := by
    rw [List.map_reverse, List.nodup_reverse]
    exact nodup_normalized
  exact lookup_map_self normalize_product PRODUCT_ORDER.reverse p h1
    (List.mem_reverse.mpr hp)

theorem summary_row_labels (rows : List Row) (pr : Str × List ℚ)
    (hpr : pr ∈ (build_summary_for_colleague rows).2) :
    pr.1 = [] ∨ pr.1 ∈ PRODUCT_ORDER := by
  simp only [build_summary_for_colleague] at hpr
  rw [List.mem_flatMap] at hpr
  obtain ⟨p, hp, hmem⟩ := hpr
  rcases List.mem_cons.mp hmem with hfirst | hrest
  · subst hfirst
    exact Or.inr hp
  · cases hlk : List.lookup p BRAND_BOUNDARIES with
    | some brand =>
      simp only [hlk, List.mem_singleton] at hrest
      subst hrest
      exact Or.inl rfl
    | none =>
      simp [hlk] at hrest

/-- C8 counterexample: `normalize_product` collapses only runs of space
characters, not arbitrary whitespace: on `"a\tb"` it keeps the tab, while the
claim's collapse-every-whitespace-run normalization would produce `"a b"`. -/
theorem claim_C8_counterexample_tab_not_collapsed :
    ¬ (normalize_product (("a\tb").data) = normSpecWs (("a\tb").data)) := by
  decide

/-- C8 (amended): product normalization lower-cases (case-insensitive
comparison), trims, and collapses every run of internal *space characters*
(U+0020) to a single space; whenever a normalized product matches a catalog
entry the canonical catalog spelling is returned as the key, and every summary
row is labelled either with a canonical catalog name or with the blank subtotal
label. -/
theorem claim_C8_normalization_and_display_key :
    (∀ v, normalize_product v = normSpec v) ∧
    (∀ s p, List.lookup (normalize_product s) productMap = some p →
      p ∈ PRODUCT_ORDER ∧ normalize_product p = normalize_product s) ∧
    (∀ rows pr, pr ∈ (build_summary_for_colleague rows).2 →
      pr.1 = [] ∨ pr.1 ∈ PRODUCT_ORDER) :=
  ⟨normalize_product_eq_normSpec,
   fun s p h => productMap_lookup_some (normalize_product s) p h,
   summary_row_labels⟩

theorem format_num_id (v : ℚ) : format_num v = v := by
  rw [format_num]
  split_ifs <;> rfl

theorem products_ne_nil : ∀ p ∈ PRODUCT_ORDER, p ≠ [] := by decide

theorem summaryStep_apply (t : (Str × Str) → ℚ) (r : Row) (k : Str × Str) :
    summaryStep t r k = t k +
      (match List.lookup (normalize_product r.product) productMap,
        parse_quantity r.qty with
      | some prod, some amt => if k = (prod, r.date) then amt else 0
      | _, _ => 0) := by
  cases h1 : List.lookup (normalize_product r.product) productMap with
  | none => simp [summaryStep, h1]
  | some prod =>
    cases h2 : parse_quantity r.qty with
    | none => simp [summaryStep, h1, h2]
    | some amt =>
      by_cases hk : k = (prod, r.date)
      · simp [summaryStep, h1, h2, hk]
      · simp [summaryStep, h1, h2, hk]

theorem totalsOf_fold : ∀ (rows : List Row) (t : (Str × Str) → ℚ) (k : Str × Str),
    (rows.foldl summaryStep t) k =
      t k + (rows.map (fun r =>
        match List.lookup (normalize_product r.product) productMap,
          parse_quantity r.qty with
        | some prod, some amt => if k = (prod, r.date) then amt else 0
        | _, _ => 0)).sum := by
  intro rows
  induction rows with
  | nil => intro t k; simp
  | cons r rest ih =>
    intro t k
    rw [List.foldl_cons, ih (summaryStep t r) k, summaryStep_apply, List.map_cons,
      List.sum_cons]
    ring

theorem totalsOf_eq_specCell (rows : List Row) (p : Str) (hp : p ∈ PRODUCT_ORDER)
    (d : Str) : totalsOf rows (p, d) = specCell rows p d := by
  rw [totalsOf, totalsOf_fold, specCell]
  simp only [zero_add]
  congr 1
  apply List.map_congr_left
  intro r _
  cases h1 : List.lookup (normalize_product r.product) productMap with
  | none =>
    have hne : ¬(normalize_product r.product = normalize_product p ∧ r.date = d) := by
      rintro ⟨hnp, _⟩
      have hself := productMap_lookup_self p hp
      rw [← hnp, h1] at hself
      cases hself
    simp only [h1]
    rw [if_neg hne]
  | some prod =>
    obtain ⟨hmem, hnorm⟩ := productMap_lookup_some _ _ h1
    cases h2 : parse_quantity r.qty with
    | none => simp [h1, h2]
    | some amt =>
      simp only [h1, h2, Option.getD_some]
      have hiff : ((p, d) = (prod, r.date)) ↔
          (normalize_product r.product = normalize_product p ∧ r.date = d) := by
        constructor
        · intro heq
          injection heq with e1 e2
          subst e1
          exact ⟨hnorm.symm, e2.symm⟩
        · rintro ⟨hnp, hd⟩
          have hself := productMap_lookup_self p hp
          rw [← hnp, h1] at hself
          injection hself with e
          subst e
          rw [hd]
      by_cases hcond : normalize_product r.product = normalize_product p ∧ r.date = d
      · rw [if_pos (hiff.mpr hcond), if_pos hcond]
      · rw [if_neg (fun hx => hcond (hiff.mp hx)), if_neg hcond]

theorem strLe_trans (a b c : Str) (hab : strLe a b = true) (hbc : strLe b c = true) :
    strLe a c = true := by
  simp only [strLe, decide_eq_true_eq] at *
  exact le_trans hab hbc

theorem strLe_total (a b : Str) : (strLe a b || strLe b a) = true := by
  simp only [strLe, Bool.or_eq_true, decide_eq_true_eq]
  exact le_total a b

theorem dateHeaders_sorted (rows : List Row) :
    (dateHeadersOf rows).Pairwise (fun a b => strLe a b = true) := by
  rw [dateHeadersOf]
  by_cases h : ((datesOf rows).dedup.mergeSort strLe) = []
  · rw [if_pos h]
    simp
  · rw [if_neg h]
    exact List.sorted_mergeSort strLe_trans strLe_total ((datesOf rows).dedup)

theorem dateHeaders_nodup (rows : List Row) : (dateHeadersOf rows).Nodup := by
  rw [dateHeadersOf]
  by_cases h : ((datesOf rows).dedup.mergeSort strLe) = []
  · rw [if_pos h]
    simp
  · rw [if_neg h]
    exact ((List.mergeSort_perm (datesOf rows).dedup strLe).nodup_iff).mpr
      (List.nodup_dedup _)

theorem mergeSort_dedup_nil_iff (rows : List Row) :
    ((datesOf rows).dedup.mergeSort strLe) = [] ↔ datesOf rows = [] := by
  constructor
  · intro h
    have hperm := List.mergeSort_perm (datesOf rows).dedup strLe
    rw [h] at hperm
    have hded : (datesOf rows).dedup = [] := hperm.symm.eq_nil
    rwa [List.dedup_eq_nil] at hded
  · intro h
    rw [h]
    simp

theorem dateHeaders_mem (rows : List Row) (d : Str) :
    d ∈ dateHeadersOf rows ↔
      (d ∈ datesOf rows ∨ (datesOf rows = [] ∧ d = ("Дата").data)) := by
  rw [dateHeadersOf]
  by_cases h : ((datesOf rows).dedup.mergeSort strLe) = []
  · rw [if_pos h]
    have hnil : datesOf rows = [] := (mergeSort_dedup_nil_iff rows).mp h
    simp [hnil, eq_comm]
  · rw [if_neg h]
    have hne : datesOf rows ≠ [] := fun hc => h ((mergeSort_dedup_nil_iff rows).mpr hc)
    rw [(List.mergeSort_perm (datesOf rows).dedup strLe).mem_iff, List.mem_dedup]
    simp [hne]

theorem flatMap_eq_map {α β : Type _} :
    ∀ (l : List α) (f : α → List β) (g : α → β),
      (∀ a ∈ l, f a = [g a]) → l.flatMap f = l.map g := by
  intro l f g
  induction l with
  | nil => intro _; rfl
  | cons a t ih =>
    intro h
    rw [List.flatMap_cons, List.map_cons, h a (List.mem_cons_self a t),
      ih (fun x hx => h x (List.mem_cons_of_mem _ hx))]
    rfl

theorem summary_rows_filter (rows : List Row) :
    ((build_summary_for_colleague rows).2).filter (fun pr => pr.1 ≠ []) =
      PRODUCT_ORDER.map (fun p =>
        (p, (dateHeadersOf rows).map (fun d => format_num (totalsOf rows (p, d))))) := by
  simp only [build_summary_for_colleague]
  rw [List.filter_flatMap]
  apply flatMap_eq_map
  intro p hp
  rw [List.filter_cons]
  rw [if_pos (by simpa using products_ne_nil p hp)]
  congr 1
  cases hlk : List.lookup p BRAND_BOUNDARIES with
  | none => simp
  | some brand => simp

/-- C2: for every group of rows, the summary's date columns are exactly the
distinct non-empty date values of the group, in ascending code-point order
(with the placeholder column exactly when no dated row exists), and the
product rows of the summary are, in catalog order, the catalog products with
each cell equal to the reference sum over the matching rows of the group. -/
theorem claim_C2_summary_equals_reference :
    ∀ rows : List Row,
      ((build_summary_for_colleague rows).1).Pairwise (fun a b => strLe a b = true) ∧
      ((build_summary_for_colleague rows).1).Nodup ∧
      (∀ d, d ∈ (build_summary_for_colleague rows).1 ↔
        (d ∈ datesOf rows ∨ (datesOf rows = [] ∧ d = ("Дата").data))) ∧
      ((build_summary_for_colleague rows).2).filter (fun pr => pr.1 ≠ []) =
        PRODUCT_ORDER.map (fun p =>
          (p, ((build_summary_for_colleague rows).1).map (fun d => specCell rows p d))) := by
  intro rows
  refine ⟨dateHeaders_sorted rows, dateHeaders_nodup rows, dateHeaders_mem rows, ?_⟩
  rw [summary_rows_filter rows]
  apply List.map_congr_left
  intro p hp
  congr 1
  apply List.map_congr_left
  intro d _
  rw [format_num_id]
  exact totalsOf_eq_specCell rows p hp d

theorem brand_products_mem (brand q : Str)
    (hq : q ∈ (List.lookup brand BRAND_PRODUCTS).getD []) : q ∈ PRODUCT_ORDER := by
  cases hlk : List.lookup brand BRAND_PRODUCTS with
  | none =>
    rw [hlk] at hq
    cases hq
  | some bps =>
    rw [hlk] at hq
    simp only [Option.getD_some] at hq
    have hmem := lookup_pair_mem _ _ _ hlk
    rw [BRAND_PRODUCTS] at hmem
    simp only [List.mem_cons, List.not_mem_nil, or_false] at hmem
    rcases hmem with h | h | h | h <;> (injection h with h1 h2; subst h2)
    · exact List.take_subset _ _ hq
    · exact List.drop_subset _ _ (List.take_subset _ _ hq)
    · exact List.drop_subset _ _ (List.take_subset _ _ hq)
    · exact List.drop_subset _ _ (List.take_subset _ _ hq)

/-- C3: the summary rows are exactly: for each catalog product in catalog
order, its per-date row, followed immediately — exactly when the product is a
brand boundary — by one blank-labelled subtotal row whose cell per date column
is the sum of the per-product totals over that boundary's brand group. -/
theorem claim_C3_brand_subtotal_rows :
    ∀ rows : List Row,
      (build_summary_for_colleague rows).2 =
        summaryRowsSpec rows ((build_summary_for_colleague rows).1) := by
  intro rows
  show (build_summary_for_colleague rows).2 = summaryRowsSpec rows (dateHeadersOf rows)
  simp only [build_summary_for_colleague, summaryRowsSpec]
  apply List.flatMap_congr
  intro p hp
  have hrow : (p, (dateHeadersOf rows).map
      (fun d => format_num (totalsOf rows (p, d)))) =
      (p, (dateHeadersOf rows).map (fun d => specCell rows p d)) := by
    congr 1
    apply List.map_congr_left
    intro d _
    rw [format_num_id]
    exact totalsOf_eq_specCell rows p hp d
  rw [hrow]
  congr 1
  cases hlk : List.lookup p BRAND_BOUNDARIES with
  | none => simp [hlk]
  | some brand =>
    simp only [hlk]
    congr 2
    rw [totalsForProducts, List.map_map]
    apply List.map_congr_left
    intro d _
    simp only [Function.comp_apply]
    rw [format_num_id]
    congr 1
    apply List.map_congr_left
    intro q hq
    exact totalsOf_eq_specCell rows q (brand_products_mem brand q hq) d

theorem groupInsert_map_fst (acc : List (Str × List Row)) (r : Row) :
    (groupInsert acc r).map (fun e => e.1) =
      (if nameOf r ∈ acc.map (fun e => e.1) then acc.map (fun e => e.1)
       else acc.map (fun e => e.1) ++ [nameOf r]) := by
  have hmem : (acc.any (fun e => decide (e.1 = nameOf r)) = true) ↔
      nameOf r ∈ acc.map (fun e => e.1) := by
    rw [List.any_eq_true]
    constructor
    · rintro ⟨e, he, hd⟩
      rw [decide_eq_true_eq] at hd
      exact hd ▸ List.mem_map_of_mem _ he
    · intro hm
      rcases List.mem_map.mp hm with ⟨e, he, heq⟩
      exact ⟨e, he, by rw [decide_eq_true_eq, heq]⟩
  rw [groupInsert]
  by_cases h : nameOf r ∈ acc.map (fun e => e.1)
  · rw [if_pos (hmem.mpr h), if_pos h, List.map_map]
    apply List.map_congr_left
    intro e _
    by_cases he : e.1 = nameOf r <;> simp [he]
  · rw [if_neg (fun hc => h (hmem.mp hc)), if_neg h, List.map_append]
    rfl

theorem groupFold_map_fst : ∀ (rows : List Row) (acc : List (Str × List Row)),
    (rows.foldl groupInsert acc).map (fun e => e.1) =
      rows.foldl (fun ns r => if nameOf r ∈ ns then ns else ns ++ [nameOf r])
        (acc.map (fun e => e.1)) := by
  intro rows
  induction rows with
  | nil => intro acc; rfl
  | cons r rest ih =>
    intro acc
    rw [List.foldl_cons, List.foldl_cons, ih (groupInsert acc r), groupInsert_map_fst]

theorem colleagueGroups_names (rows : List Row) :
    (colleagueGroups rows).map (fun e => e.1) = firstAppearances (rows.map nameOf) := by
  rw [colleagueGroups, groupFold_map_fst, firstAppearances, List.foldl_map]
  simp only [List.map_nil]
  congr 1
  funext ns r
  congr

theorem groupRows_insert (acc : List (Str × List Row)) (r : Row) (n : Str) :
    groupRows n (groupInsert acc r) =
      if nameOf r = n then groupRows n acc ++ [r] else groupRows n acc := by
  have hanyiff : (acc.any (fun e => decide (e.1 = nameOf r)) = true) ↔
      ∃ e ∈ acc, e.1 = nameOf r := by
    rw [List.any_eq_true]
    constructor
    · rintro ⟨e, he, hd⟩
      exact ⟨e, he, by rwa [decide_eq_true_eq] at hd⟩
    · rintro ⟨e, he, hd⟩
      exact ⟨e, he, decide_eq_true hd⟩
  rw [groupInsert]
  by_cases hany : acc.any (fun e => decide (e.1 = nameOf r)) = true
  · rw [if_pos hany]
    rw [groupRows, groupRows, List.find?_map]
    have hcomp : ((fun e : Str × List Row => e.1 == n) ∘
        (fun e => if e.1 = nameOf r then (e.1, e.2 ++ [r]) else e)) =
        (fun e : Str × List Row => e.1 == n) := by
      funext e
      by_cases he : e.1 = nameOf r <;> simp [he]
    rw [hcomp]
    cases hfind : acc.find? (fun e => e.1 == n) with
    | none =>
      have hn : nameOf r ≠ n := by
        intro heq
        obtain ⟨e, he, hd⟩ := hanyiff.mp hany
        have : (fun e : Str × List Row => e.1 == n) e = true := by
          simp [hd, heq]
        have := List.find?_eq_none.mp hfind e he
        contradiction
      rw [if_neg hn]
      simp
    | some e0 =>
      have he0 : e0.1 = n := by
        have := List.find?_some hfind
        simpa using this
      by_cases hn : nameOf r = n
      · rw [if_pos hn]
        have hupd : (if e0.1 = nameOf r then (e0.1, e0.2 ++ [r]) else e0) =
            (e0.1, e0.2 ++ [r]) := by
          rw [if_pos (by rw [he0, hn])]
        simp [hupd]
      · rw [if_neg hn]
        have hupd : (if e0.1 = nameOf r then (e0.1, e0.2 ++ [r]) else e0) = e0 := by
          rw [if_neg (by rw [he0]; exact fun hx => hn hx.symm)]
        simp [hupd]
  · rw [if_neg hany]
    rw [groupRows, groupRows, List.find?_append]
    cases hfind : acc.find? (fun e => e.1 == n) with
    | some e0 =>
      have he0 : e0.1 = n := by
        have := List.find?_some hfind
        simpa using this
      have hmem := List.mem_of_find?_eq_some hfind
      have hn : nameOf r ≠ n := by
        intro heq
        exact hany (hanyiff.mpr ⟨e0, hmem, by rw [he0, heq]⟩)
      rw [if_neg hn]
      simp
    | none =>
      by_cases hn : nameOf r = n
      · rw [if_pos hn, hn]
        simp
      · rw [if_neg hn]
        have : ((nameOf r, [r]).1 == n) = false := by simpa using hn
        simp [List.find?, this]

theorem groupRows_fold : ∀ (rows : List Row) (acc : List (Str × List Row)) (n : Str),
    groupRows n (rows.foldl groupInsert acc) =
      groupRows n acc ++ rows.filter (fun r => decide (nameOf r = n)) := by
  intro rows
  induction rows with
  | nil => intro acc n; simp
  | cons r rest ih =>
    intro acc n
    rw [List.foldl_cons, ih (groupInsert acc r) n, groupRows_insert, List.filter_cons]
    by_cases hn : nameOf r = n
    · rw [if_pos hn, if_pos (decide_eq_true hn)]
      simp
    · rw [if_neg hn, if_neg (by simpa using hn)]

theorem colleagueGroups_bucket (rows : List Row) (n : Str) :
    groupRows n (colleagueGroups rows) =
      rows.filter (fun r => decide (nameOf r = n)) := by
  rw [colleagueGroups, groupRows_fold]
  rfl

theorem mem_fA_fold {α : Type _} [DecidableEq α] :
    ∀ (l : List α) (acc : List α) (x : α),
      x ∈ l.foldl (fun acc y => if y ∈ acc then acc else acc ++ [y]) acc ↔
        (x ∈ acc ∨ x ∈ l) := by
  intro l
  induction l with
  | nil => intro acc x; simp
  | cons y t ih =>
    intro acc x
    rw [List.foldl_cons]
    by_cases hy : y ∈ acc
    · rw [if_pos hy, ih]
      constructor
      · rintro (h | h)
        · exact Or.inl h
        · exact Or.inr (List.mem_cons_of_mem _ h)
      · rintro (h | h)
        · exact Or.inl h
        · rcases List.mem_cons.mp h with rfl | h'
          · exact Or.inl hy
          · exact Or.inr h'
    · rw [if_neg hy, ih]
      constructor
      · rintro (h | h)
        · rcases List.mem_append.mp h with h' | h'
          · exact Or.inl h'
          · rcases List.mem_singleton.mp h' with rfl
            exact Or.inr (List.mem_cons_self _ _)
        · exact Or.inr (List.mem_cons_of_mem _ h)
      · rintro (h | h)
        · exact Or.inl (List.mem_append_left _ h)
        · rcases List.mem_cons.mp h with rfl | h'
          · exact Or.inl (List.mem_append_right _ (List.mem_singleton_self _))
          · exact Or.inr h'

theorem nodup_fA_fold {α : Type _} [DecidableEq α] :
    ∀ (l : List α) (acc : List α), acc.Nodup →
      (l.foldl (fun acc y => if y ∈ acc then acc else acc ++ [y]) acc).Nodup := by
  intro l
  induction l with
  | nil => intro acc h; exact h
  | cons y t ih =>
    intro acc h
    rw [List.foldl_cons]
    by_cases hy : y ∈ acc
    · rw [if_pos hy]
      exact ih acc h
    · rw [if_neg hy]
      apply ih
      rw [List.nodup_append]
      exact ⟨h, List.nodup_singleton y, by simpa [List.disjoint_singleton] using hy⟩

/-- C6: grouping the output rows by responsible person yields the distinct
stripped names in first-appearance order; each group's rows are exactly the
input rows with that name, in input order; a row with a blank responsible
value lands in the fixed sentinel group, which appears in the output whenever
such a row exists. -/
theorem claim_C6_grouping_first_appearance :
    ∀ rows : List Row,
      ((colleagueGroups rows).map (fun e => e.1) =
        firstAppearances (rows.map nameOf)) ∧
      (∀ n, groupRows n (colleagueGroups rows) =
        rows.filter (fun r => decide (nameOf r = n))) ∧
      (∀ r ∈ rows, pyStrip r.predal = [] →
        nameOf r = SENTINEL ∧ r ∈ groupRows SENTINEL (colleagueGroups rows)) ∧
      ((∃ r ∈ rows, pyStrip r.predal = []) →
        SENTINEL ∈ (colleagueGroups rows).map (fun e => e.1)) := by
  intro rows
  refine ⟨colleagueGroups_names rows, colleagueGroups_bucket rows, ?_, ?_⟩
  · intro r hr hblank
    have hname : nameOf r = SENTINEL := by
      rw [nameOf, if_neg (by simp [hblank])]
    refine ⟨hname, ?_⟩
    rw [colleagueGroups_bucket]
    rw [List.mem_filter]
    exact ⟨hr, decide_eq_true hname⟩
  · rintro ⟨r, hr, hblank⟩
    rw [colleagueGroups_names, firstAppearances, mem_fA_fold]
    right
    rw [List.mem_map]
    refine ⟨r, hr, ?_⟩
    rw [nameOf, if_neg (by simp [hblank])]

theorem worker_fold_spec (chunker : Str → List Str) (oracle : Str → FetchResult) :
    ∀ (rows : List RRow) (cache : List (Str × Str)) (out : List Row)
      (trace : List Str),
      (∀ l, List.lookup l cache =
        if l ∈ trace then some (fetchValue chunker oracle l) else none) →
      (∀ l, List.lookup l
          (rows.foldl (workerStep chunker oracle) (cache, out, trace)).1 =
        if l ∈ (rows.foldl (workerStep chunker oracle) (cache, out, trace)).2.2 then
          some (fetchValue chunker oracle l) else none) ∧
      (rows.foldl (workerStep chunker oracle) (cache, out, trace)).2.2 =
        (rows.filterMap (fun r => r.link)).foldl
          (fun acc x => if x ∈ acc then acc else acc ++ [x]) trace ∧
      (rows.foldl (workerStep chunker oracle) (cache, out, trace)).2.1 =
        out ++ rows.map (fun r =>
          ⟨r.number, (match r.link with
            | some l => fetchValue chunker oracle l
            | none => []), r.date, r.product, r.qty, r.link⟩) := by
  intro rows
  induction rows with
  | nil =>
    intro cache out trace hc
    exact ⟨hc, rfl, by simp⟩
  | cons r rest ih =>
    intro cache out trace hc
    rw [List.foldl_cons]
    cases hlink : r.link with
    | none =>
      have hstep : workerStep chunker oracle (cache, out, trace) r =
          (cache, out ++ [⟨r.number, [], r.date, r.product, r.qty, none⟩], trace) := by
        simp [workerStep, hlink]
      rw [hstep]
      obtain ⟨h1, h2, h3⟩ :=
        ih cache (out ++ [⟨r.number, [], r.date, r.product, r.qty, none⟩]) trace hc
      refine ⟨h1, ?_, ?_⟩
      · rw [h2, List.filterMap_cons]
        simp only [hlink]
      · rw [h3, List.map_cons]
        simp [hlink, List.append_assoc]
    | some l =>
      cases hhit : List.lookup l cache with
      | some v =>
        have hvt : l ∈ trace ∧ v = fetchValue chunker oracle l := by
          have hcl := hc l
          rw [hhit] at hcl
          by_cases hl : l ∈ trace
          · rw [if_pos hl] at hcl
            refine ⟨hl, ?_⟩
            injection hcl
          · rw [if_neg hl] at hcl
            cases hcl
        have hstep : workerStep chunker oracle (cache, out, trace) r =
            (cache, out ++ [⟨r.number, v, r.date, r.product, r.qty, some l⟩],
             trace) := by
          simp [workerStep, hlink, hhit]
        rw [hstep]
        obtain ⟨h1, h2, h3⟩ :=
          ih cache (out ++ [⟨r.number, v, r.date, r.product, r.qty, some l⟩]) trace hc
        refine ⟨h1, ?_, ?_⟩
        · rw [h2, List.filterMap_cons]
          simp only [hlink]
          rw [List.foldl_cons, if_pos hvt.1]
        · rw [h3, List.map_cons]
          simp [hlink, hvt.2, List.append_assoc]
      | none =>
        have hlt : l ∉ trace := by
          intro hl
          have hcl := hc l
          rw [hhit, if_pos hl] at hcl
          cases hcl
        have hstep : workerStep chunker oracle (cache, out, trace) r =
            (cache ++ [(l, fetchValue chunker oracle l)],
             out ++ [⟨r.number, fetchValue chunker oracle l, r.date, r.product,
               r.qty, some l⟩],
             trace ++ [l]) := by
          simp [workerStep, hlink, hhit]
        rw [hstep]
        have hc' : ∀ l', List.lookup l'
            (cache ++ [(l, fetchValue chunker oracle l)]) =
            if l' ∈ trace ++ [l] then some (fetchValue chunker oracle l')
            else none := by
          intro l'
          rw [List.lookup_append]
          by_cases he : l' = l
          · subst he
            rw [hc l', if_neg hlt]
            simp [List.lookup_cons]
          · rw [hc l']
            by_cases ht : l' ∈ trace
            · rw [if_pos ht, if_pos (List.mem_append_left _ ht)]
              rfl
            · rw [if_neg ht, if_neg (by simp [ht, he])]
              have hbe : (l' == l) = false := by simpa using he
              simp [List.lookup_cons, hbe]
        obtain ⟨h1, h2, h3⟩ :=
          ih (cache ++ [(l, fetchValue chunker oracle l)])
            (out ++ [⟨r.number, fetchValue chunker oracle l, r.date, r.product,
              r.qty, some l⟩])
            (trace ++ [l]) hc'
        refine ⟨h1, ?_, ?_⟩
        · rw [h2, List.filterMap_cons]
          simp only [hlink]
          rw [List.foldl_cons, if_neg hlt]
        · rw [h3, List.map_cons]
          simp [hlink, List.append_assoc]

/-- C5: within one run, each distinct document link is passed to the fetch
collaborator exactly once (in first-appearance order), every row's resolution
of the same link yields the identical value, a fetch failure degrades to the
empty value recorded in the cache rather than aborting, and every loaded row
still produces an output row. -/
theorem claim_C5_link_fetched_once_and_cached :
    ∀ (chunker : Str → List Str) (oracle : Str → FetchResult) (rows : List RRow),
      (workerProcess chunker oracle rows).2.2 =
        firstAppearances (rows.filterMap (fun r => r.link)) ∧
      (∀ l, (∃ r ∈ rows, r.link = some l) →
        ((workerProcess chunker oracle rows).2.2).count l = 1) ∧
      (workerProcess chunker oracle rows).2.1.length = rows.length ∧
      (∀ l r₁ r₂, r₁ ∈ (workerProcess chunker oracle rows).2.1 →
        r₂ ∈ (workerProcess chunker oracle rows).2.1 →
        r₁.link = some l → r₂.link = some l → r₁.predal = r₂.predal) ∧
      (∀ l, oracle l = FetchResult.err →
        (∀ r' ∈ (workerProcess chunker oracle rows).2.1, r'.link = some l →
          r'.predal = []) ∧
        ((∃ r ∈ rows, r.link = some l) →
          List.lookup l (workerProcess chunker oracle rows).1 = some [])) := by
  intro chunker oracle rows
  have hc0 : ∀ l, List.lookup l ([] : List (Str × Str)) =
      if l ∈ ([] : List Str) then some (fetchValue chunker oracle l) else none := by
    intro l
    simp [List.lookup]
  obtain ⟨H1, H2, H3⟩ := worker_fold_spec chunker oracle rows [] [] [] hc0
  have htrace : (workerProcess chunker oracle rows).2.2 =
      firstAppearances (rows.filterMap (fun r => r.link)) := by
    show (rows.foldl (workerStep chunker oracle) ([], [], [])).2.2 = _
    rw [H2, firstAppearances]
    congr 1
    funext acc x
    congr
  have hout : (workerProcess chunker oracle rows).2.1 =
      rows.map (fun r =>
        (⟨r.number, (match r.link with
          | some l => fetchValue chunker oracle l
          | none => []), r.date, r.product, r.qty, r.link⟩ : Row)) := by
    show (rows.foldl (workerStep chunker oracle) ([], [], [])).2.1 = _
    rw [H3, List.nil_append]
  have hnodup : (firstAppearances (rows.filterMap (fun r => r.link))).Nodup := by
    rw [firstAppearances]
    exact nodup_fA_fold _ [] List.nodup_nil
  have hmem : ∀ l, l ∈ firstAppearances (rows.filterMap (fun r => r.link)) ↔
      l ∈ rows.filterMap (fun r => r.link) := by
    intro l
    rw [firstAppearances, mem_fA_fold]
    simp
  have hcountbr : ∀ (x : Str) (L : List Str),
      L.count x = @List.count Str instBEqOfDecidableEq x L := by
    intro x L
    induction L with
    | nil => rfl
    | cons y t ih =>
      rw [List.count_cons, @List.count_cons Str instBEqOfDecidableEq, ih]
      by_cases h : y = x <;> simp [h]
  refine ⟨htrace, ?_, ?_, ?_, ?_⟩
  · rintro l ⟨r, hr, hl⟩
    have hmf : l ∈ rows.filterMap (fun r => r.link) :=
      List.mem_filterMap.mpr ⟨r, hr, hl⟩
    rw [htrace, hcountbr]
    exact List.count_eq_one_of_mem hnodup ((hmem l).mpr hmf)
  · rw [hout, List.length_map]
  · intro l r₁ r₂ h₁ h₂ hl₁ hl₂
    rw [hout] at h₁ h₂
    obtain ⟨a₁, ha₁, rfl⟩ := List.mem_map.mp h₁
    obtain ⟨a₂, ha₂, rfl⟩ := List.mem_map.mp h₂
    have g₁ : a₁.link = some l := hl₁
    have g₂ : a₂.link = some l := hl₂
    show (match a₁.link with
          | some x => fetchValue chunker oracle x
          | none => []) =
        (match a₂.link with
          | some x => fetchValue chunker oracle x
          | none => [])
    rw [g₁, g₂]
  · intro l herr
    constructor
    · intro r' hr' hl'
      rw [hout] at hr'
      obtain ⟨a, ha, rfl⟩ := List.mem_map.mp hr'
      have g : a.link = some l := hl'
      show (match a.link with
            | some x => fetchValue chunker oracle x
            | none => []) = []
      rw [g]
      simp [fetchValue, herr]
    · rintro ⟨r, hr, hl⟩
      have hmf : l ∈ rows.filterMap (fun r => r.link) :=
        List.mem_filterMap.mpr ⟨r, hr, hl⟩
      have hintrace : l ∈ (List.foldl (workerStep chunker oracle) ([], [], []) rows).2.2 := by
        show l ∈ (workerProcess chunker oracle rows).2.2
        rw [htrace]
        exact (hmem l).mpr hmf
      have hv := H1 l
      rw [if_pos hintrace] at hv
      show List.lookup l (rows.foldl (workerStep chunker oracle) ([], [], [])).1 =
        some []
      rw [hv]
      simp [fetchValue, herr]
